import Mathlib

/-
Formal model of the batch image resizer (source: src/pipeline.js, src/utils.js).
Filenames and text are modelled as `List Char`; JS numbers used for geometry are
modelled as exact rationals with the explicit `Math.round` semantics
(round half toward positive infinity); byte payloads are `List Nat`; host
facilities that can fail (image decoding, encoding, EXIF/metadata rewriting via
exifr and piexifjs) are modelled as an injected capability record whose
operations return `Except`, mirroring the thrown-exception behaviour of the
browser APIs that the pipeline awaits.
-/

namespace Resizer

/-! ### Character and word constants (src/utils.js) -/

/-- The characters replaced by `sanitizeFilename`: `\ / : * ? " < > |`. -/
def forbiddenChars : List Char := ['\\', '/', ':', '*', '?', '\"', '<', '>', '|']

def forbiddenChar (c : Char) : Bool := decide (c ∈ forbiddenChars)

/-- JS `\s` (the whitespace class), restricted to the ASCII whitespace
characters that can appear in filenames in this model. -/
def jsIsSpace (c : Char) : Bool :=
  decide (c = ' ' ∨ c = '\t' ∨ c = '\n' ∨ c = '\r' ∨ c = '\x0b' ∨ c = '\x0c')

def wsOrDot (c : Char) : Bool := jsIsSpace c || decide (c = '.')

def imageWord : List Char := ['i', 'm', 'a', 'g', 'e']

def presetWord : List Char := ['p', 'r', 'e', 's', 'e', 't']

def nonzeroDigits : List Char := ['1', '2', '3', '4', '5', '6', '7', '8', '9']

/-- The Windows reserved device names tested by `sanitizeFilename`
(`CON|PRN|AUX|NUL|COM[1-9]|LPT[1-9]`). -/
def reservedNames : List (List Char) :=
  [['C', 'O', 'N'], ['P', 'R', 'N'], ['A', 'U', 'X'], ['N', 'U', 'L']] ++
    (nonzeroDigits.map fun d => ['C', 'O', 'M', d]) ++
    (nonzeroDigits.map fun d => ['L', 'P', 'T', d])

def isReserved (s : List Char) : Bool := decide (s.map Char.toUpper ∈ reservedNames)

/-! ### `replace(/\s+/g, ' ')`: collapse whitespace runs to a single space.
The accumulator flag records whether the previous character belonged to a
whitespace run that has already emitted its single `' '`. -/

def collapseWsAux : Bool → List Char → List Char
  | _, [] => []
  | prevWs, c :: rest =>
    if jsIsSpace c then
      if prevWs then collapseWsAux true rest else ' ' :: collapseWsAux true rest
    else c :: collapseWsAux false rest

def collapseWs (l : List Char) : List Char := collapseWsAux false l

/-- Strip characters satisfying `p` from both ends
(used for `trim()` and for `replace(/^[\s.]+|[\s.]+$/g, '')`). -/
def stripEnds (p : Char → Bool) (l : List Char) : List Char :=
  ((l.dropWhile p).reverse.dropWhile p).reverse

/-- `sanitizeFilename` from src/utils.js lines 46-57: replace the forbidden
characters with `'-'`, collapse whitespace, trim whitespace, strip leading and
trailing dots/spaces, default to `"image"` when empty, suffix reserved device
names with `'_'`, and cap the length. -/
def sanitizeFilename (name : List Char) (maxLength : ℕ) : List Char :=
  let s1 := name.map fun c => if forbiddenChar c then '-' else c
  let s2 := collapseWs s1
  let s3 := stripEnds jsIsSpace s2
  let s4 := stripEnds wsOrDot s3
  let s5 := if s4 = [] then imageWord else s4
  let s6 := if isReserved s5 then s5 ++ ['_'] else s5
  if maxLength < s6.length then s6.take maxLength else s6

/-! ### Decimal rendering of naturals (JS template `${counter}` / `String(n)`) -/

def digitChar (n : ℕ) : Char :=
  match n with
  | 0 => '0' | 1 => '1' | 2 => '2' | 3 => '3' | 4 => '4'
  | 5 => '5' | 6 => '6' | 7 => '7' | 8 => '8' | _ => '9'

def natToCharsAux : ℕ → ℕ → List Char
  | 0, n => [digitChar n]
  | fuel + 1, n =>
    if n < 10 then [digitChar n]
    else natToCharsAux fuel (n / 10) ++ [digitChar (n % 10)]

def natToChars (n : ℕ) : List Char := natToCharsAux n n

/-! ### `makeUniqueName` from src/utils.js lines 59-67.
`candName base 0` is the initial candidate `base`; `candName base (i+1)` is the
candidate produced on the `(i+1)`-th collision, ``base-(i+2)`` (the JS counter
starts at 2).  The JS `while` loop terminates because the used-name set is
finite; the fuel `used.length + 1` is provably sufficient. -/

def candName (base : List Char) : ℕ → List Char
  | 0 => base
  | i + 1 => base ++ '-' :: natToChars (i + 2)

def mkUniqueAux (base : List Char) (used : List (List Char)) : ℕ → ℕ → List Char
  | 0, i => candName base i
  | fuel + 1, i =>
    if candName base i ∈ used then mkUniqueAux base used fuel (i + 1)
    else candName base i

/-- `makeUniqueName(baseName, usedNames)`: returns the chosen name together
with the updated used-name set (`usedNames.add(candidate)`). -/
def makeUniqueName (base : List Char) (used : List (List Char)) :
    List Char × List (List Char) :=
  let c := mkUniqueAux base used (used.length + 1) 0
  (c, c :: used)

/-! ### Geometry: fit modes and the draw rectangle (src/pipeline.js lines 52-85) -/

inductive Fit where
  | cover | contain | inside | outside | stretch
deriving DecidableEq, Repr

inductive Format where
  | jpeg | png | webp | avif
deriving DecidableEq, Repr

/-- JS `Math.round`: round half toward positive infinity. -/
def jsRound (q : ℚ) : ℤ := ⌊q + 1 / 2⌋

structure DrawRect where
  x : ℤ
  y : ℤ
  w : ℤ
  h : ℤ
deriving DecidableEq, Repr

/-- `computeDrawRect(srcW, srcH, dstW, dstH, fit)`: the source aspect-ratio
arithmetic is carried out in exact rationals, with `Math.round` applied at each
intermediate scale computation exactly where the source applies it. -/
def computeDrawRect (srcW srcH dstW dstH : ℕ) (fit : Fit) : DrawRect :=
  if fit = Fit.stretch then ⟨0, 0, (dstW : ℤ), (dstH : ℤ)⟩
  else
    let ratioSrc : ℚ := (srcW : ℚ) / (srcH : ℚ)
    let ratioDst : ℚ := (dstW : ℚ) / (dstH : ℚ)
    let wh : ℤ × ℤ :=
      if fit = Fit.cover then
        if ratioDst < ratioSrc then (jsRound ((dstH : ℚ) * ratioSrc), (dstH : ℤ))
        else ((dstW : ℤ), jsRound ((dstW : ℚ) / ratioSrc))
      else if fit = Fit.contain ∨ fit = Fit.inside then
        if ratioDst < ratioSrc then ((dstW : ℤ), jsRound ((dstW : ℚ) / ratioSrc))
        else (jsRound ((dstH : ℚ) * ratioSrc), (dstH : ℤ))
      else if fit = Fit.outside then
        if ratioDst < ratioSrc then (jsRound ((dstH : ℚ) * ratioSrc), (dstH : ℤ))
        else ((dstW : ℤ), jsRound ((dstW : ℚ) / ratioSrc))
      else ((dstW : ℤ), (dstH : ℤ))
    ⟨jsRound (((dstW : ℚ) - (wh.1 : ℚ)) / 2), jsRound (((dstH : ℚ) - (wh.2 : ℚ)) / 2),
      wh.1, wh.2⟩

/-! ### Sharpen filter (src/pipeline.js lines 87-117).
The raster is the flat RGBA byte array `src : ℕ → ℕ` (index
`(y * width + x) * 4 + c`); `applySharpen` returns the byte array that
`imageData.data.set(out)` leaves behind.  `out` is a fresh zero-initialised
`Uint8ClampedArray`, and the loops write only interior pixels, so every
position outside the interior is the initial `0`. -/

/-- `Uint8ClampedArray` store semantics: clamp to `[0, 255]` (the code also
applies `Math.max(0, Math.min(255, val))` first) and round half to even. -/
def roundHalfEven (q : ℚ) : ℤ :=
  let f := ⌊q⌋
  let r := q - (f : ℚ)
  if r < 1 / 2 then f
  else if 1 / 2 < r then f + 1
  else if f % 2 = 0 then f else f + 1

def u8store (q : ℚ) : ℕ := (roundHalfEven (max 0 (min 255 q))).toNat

/-- Sum of the 3×3 kernel `[0,-1,0,-1,5,-1,0,-1,0]` with the `|| 1` guard. -/
def kernelSum : ℚ :=
  let s : ℚ := 0 + (-1) + 0 + (-1) + 5 + (-1) + 0 + (-1) + 0
  if s = 0 then 1 else s

def applySharpen (width height : ℕ) (intensity : ℚ) (src : ℕ → ℕ) : ℕ → ℕ :=
  if intensity ≤ 0 then src
  else
    let get : ℕ → ℕ → ℕ → ℕ := fun x y c => src ((y * width + x) * 4 + c)
    fun idx =>
      let p := idx / 4
      let c := idx % 4
      let x := p % width
      let y := p / width
      if 1 ≤ y ∧ y < height - 1 ∧ 1 ≤ x ∧ x < width - 1 then
        if c < 3 then
          let acc : ℚ :=
            0 * (get (x - 1) (y - 1) c : ℚ) + (-1) * (get x (y - 1) c : ℚ) +
              0 * (get (x + 1) (y - 1) c : ℚ) +
            (-1) * (get (x - 1) y c : ℚ) + 5 * (get x y c : ℚ) +
              (-1) * (get (x + 1) y c : ℚ) +
            0 * (get (x - 1) (y + 1) c : ℚ) + (-1) * (get x (y + 1) c : ℚ) +
              0 * (get (x + 1) (y + 1) c : ℚ)
          u8store ((1 - intensity) * (get x y c : ℚ) + intensity * (acc / kernelSum))
        else get x y c
      else 0

/-! ### Orientation normalisation (src/pipeline.js lines 166-213).
The affine transforms only move pixels; the canvas dimensions are determined by
the swap test `orientation >= 5 && orientation <= 8`.  A fresh canvas is
allocated in every case, including the no-orientation / code-1 path. -/

structure ImageBitmap where
  width : ℕ
  height : ℕ
deriving DecidableEq, Repr

structure Canvas where
  width : ℕ
  height : ℕ
deriving DecidableEq, Repr

def correctOrientationToCanvas (bm : ImageBitmap) (orientation : Option ℕ) : Canvas :=
  match orientation with
  | none => ⟨bm.width, bm.height⟩
  | some o =>
    if o = 0 ∨ o = 1 then ⟨bm.width, bm.height⟩
    else
      let swap := 5 ≤ o ∧ o ≤ 8
      ⟨if swap then bm.height else bm.width, if swap then bm.width else bm.height⟩

/-! ### Host capabilities and data model for the pipeline -/

/-- An encoded byte payload (a `Blob`). -/
def Blob := List ℕ
deriving DecidableEq

structure Exif where
  Orientation : Option ℕ
deriving DecidableEq

structure FileRec where
  name : List Char
  bytes : Blob
deriving DecidableEq

structure Preset where
  name : List Char
  width : Option ℕ
  height : Option ℕ
  fit : Fit
  format : Format
  quality : ℚ
  sharpen : ℚ
  background : Option (List Char)
  keepAspect : Option Bool

structure GlobalOptions where
  jpegDpi : ℤ
  backgroundColor : Option (List Char)
  preserveTransparency : Option Bool
  namingPattern : Option (List Char)
  productName : List Char
  comment : List Char

/-- The host codec / byte-manipulation facilities the pipeline awaits:
`createImageBitmap` (with and without the orientation option), `exifr.parse`,
`canvas.toBlob`, and the piexifjs data-URL round-trips for DPI and description
injection.  Each fallible call returns `Except`, standing for the
promise-rejection / thrown-exception behaviour of the real APIs. -/
structure Host where
  decodeOriented : FileRec → Except (List Char) ImageBitmap
  decodePlain : FileRec → Except (List Char) ImageBitmap
  parseExif : FileRec → Option Exif
  encode : ℕ → ℕ → Format → ℚ → Except (List Char) Blob
  dpiRewrite : Blob → ℤ → Except Unit Blob
  descRewrite : Blob → List Char → Except Unit Blob

def isOkE {ε α : Type} (e : Except ε α) : Bool :=
  match e with
  | .ok _ => true
  | .error _ => false

/-- `loadImageWithMetadata` (src/pipeline.js lines 25-41): EXIF parsing is
best-effort (failure yields `{}`); decoding first tries the orientation-aware
path and falls back to a plain decode, whose failure propagates. -/
def loadImageWithMetadata (host : Host) (f : FileRec) :
    Except (List Char) (ImageBitmap × Exif) :=
  let exif := (host.parseExif f).getD ⟨none⟩
  match host.decodeOriented f with
  | .ok bm => .ok (bm, exif)
  | .error _ =>
    match host.decodePlain f with
    | .ok bm => .ok (bm, exif)
    | .error e => .error e

/-! ### JPEG metadata injection (src/pipeline.js lines 135-164 and 317-343) -/

/-- `injectJpegDpiIfNeeded(blob, dpi)`: skipped for non-positive DPI; the
piexifjs round-trip is guarded by `try { ... } catch { resolve(blob) }`, so a
rewrite failure resolves with the original payload. -/
def injectJpegDpiIfNeeded (host : Host) (blob : Blob) (dpi : ℤ) : Blob :=
  if dpi ≤ 0 then blob
  else
    match host.dpiRewrite blob dpi with
    | .ok b => b
    | .error _ => blob

def descSep : List Char := [' ', '-', ' ']

/-- `[productName, comment].filter(Boolean).join(' - ')`. -/
def jpegDescription (pn cm : List Char) : List Char :=
  if pn = [] then cm else if cm = [] then pn else pn ++ descSep ++ cm

/-- `injectJpegComment(blob, productName, comment)`: same best-effort guard as
the DPI injection. -/
def injectJpegComment (host : Host) (blob : Blob) (pn cm : List Char) : Blob :=
  match host.descRewrite blob (jpegDescription pn cm) with
  | .ok b => b
  | .error _ => blob

/-! ### Naming (src/utils.js lines 27-38) -/

def startsWith : List Char → List Char → Bool
  | [], _ => true
  | _ :: _, [] => false
  | p :: ps, c :: cs => p = c && startsWith ps cs

/-- `String.prototype.replaceAll` for a non-empty pattern: structural fuel
(`s.length`) bounds the scan, each step consuming at least one character. -/
def replaceAllAux (pat rep : List Char) : ℕ → List Char → List Char
  | 0, s => s
  | fuel + 1, s =>
    if startsWith pat s ∧ pat ≠ [] then rep ++ replaceAllAux pat rep fuel (s.drop pat.length)
    else
      match s with
      | [] => []
      | c :: t => c :: replaceAllAux pat rep fuel t

def replaceAllL (pat rep s : List Char) : List Char := replaceAllAux pat rep s.length s

/-- `replace(/\.[^.]+$/, '')`: strip a final `.ext` segment when one exists. -/
def stripExt (l : List Char) : List Char :=
  let revSuffix := l.reverse.takeWhile fun c => decide (c ≠ '.')
  if revSuffix ≠ [] ∧ revSuffix.length < l.length then
    l.take (l.length - revSuffix.length - 1)
  else l

def namePH : List Char := ['\x7b', 'n', 'a', 'm', 'e', '\x7d']

def indexPH : List Char := ['\x7b', 'i', 'n', 'd', 'e', 'x', '\x7d']

def presetPH : List Char := ['\x7b', 'p', 'r', 'e', 's', 'e', 't', '\x7d']

def widthPH : List Char := ['\x7b', 'w', 'i', 'd', 't', 'h', '\x7d']

def heightPH : List Char := ['\x7b', 'h', 'e', 'i', 'g', 'h', 't', '\x7d']

def formatPH : List Char := ['\x7b', 'f', 'o', 'r', 'm', 'a', 't', '\x7d']

def productPH : List Char := ['\x7b', 'p', 'r', 'o', 'd', 'u', 'c', 't', '\x7d']

def defaultPattern : List Char := namePH ++ '_' :: presetPH

def formatWord : Format → List Char
  | Format.jpeg => ['j', 'p', 'e', 'g']
  | Format.png => ['p', 'n', 'g']
  | Format.webp => ['w', 'e', 'b', 'p']
  | Format.avif => ['a', 'v', 'i', 'f']

def jpgWord : List Char := ['j', 'p', 'g']

/-- `inferOutputName(inputName, index, preset)` with the merged record the
pipeline passes (canvas dimensions, global naming pattern and product name). -/
def inferOutputName (inputName : List Char) (index : ℕ) (presetName : List Char)
    (width height : ℕ) (format : Format) (pattern0 : Option (List Char))
    (productName : List Char) : List Char :=
  let base := stripExt (if inputName = [] then imageWord else inputName)
  let pattern :=
    match pattern0 with
    | some p => if p = [] then defaultPattern else p
    | none => defaultPattern
  let s1 := replaceAllL namePH base pattern
  let s2 := replaceAllL indexPH (natToChars index) s1
  let s3 := replaceAllL presetPH (if presetName = [] then presetWord else presetName) s2
  let s4 := replaceAllL widthPH (natToChars width) s3
  let s5 := replaceAllL heightPH (natToChars height) s4
  let s6 := replaceAllL formatPH (formatWord format) s5
  replaceAllL productPH productName s6

/-! ### Compositing policy (src/pipeline.js lines 234-258) -/

/-- `useAlpha = preset.format !== 'jpeg' && globalOptions.preserveTransparency !== false`. -/
def useAlphaFor (p : Preset) (g : GlobalOptions) : Bool :=
  decide (¬ p.format = Format.jpeg) && decide (¬ g.preserveTransparency = some false)

/-- `rect.x > 0 || rect.y > 0 || rect.w < canvas.width || rect.h < canvas.height`. -/
def leavesMargins (r : DrawRect) (w h : ℕ) : Bool :=
  decide (0 < r.x) || decide (0 < r.y) || decide (r.w < (w : ℤ)) || decide (r.h < (h : ℤ))

/-- `!useAlpha || (globalOptions.preserveTransparency === false && leavesMargins)`:
when true, the entire destination `(0, 0, canvas.width, canvas.height)` is
filled with the resolved background colour before the source is drawn;
otherwise the cleared destination stays fully transparent. -/
def paintsBackground (p : Preset) (g : GlobalOptions) (r : DrawRect) (w h : ℕ) : Bool :=
  !(useAlphaFor p g) || (decide (g.preserveTransparency = some false) && leavesMargins r w h)

/-! ### Per-job transform (src/pipeline.js lines 215-281).
Pixel contents are produced by the host codec; the model tracks the decode /
orient / fit / compositing-policy decisions, the encode call, the JPEG metadata
injections, and the produced output name. -/

def truthyDim : Option ℕ → Bool
  | none => false
  | some n => decide (n ≠ 0)

structure Artifact where
  blob : Blob
  outputName : List Char
deriving DecidableEq

def transformSingle (host : Host) (f : FileRec) (preset : Preset)
    (opts : GlobalOptions) (index : ℕ) : Except (List Char) Artifact :=
  match loadImageWithMetadata host f with
  | .error e => .error e
  | .ok (bm, exif) =>
    let oriented := correctOrientationToCanvas bm exif.Orientation
    let srcW := oriented.width
    let srcH := oriented.height
    let dims : ℕ × ℕ :=
      if preset.keepAspect ≠ some false then
        let aspect : ℚ := (srcW : ℚ) / (srcH : ℚ)
        if truthyDim preset.width && !truthyDim preset.height then
          (preset.width.getD 0, (jsRound ((preset.width.getD 0 : ℚ) / aspect)).toNat)
        else if !truthyDim preset.width && truthyDim preset.height then
          ((jsRound ((preset.height.getD 0 : ℚ) * aspect)).toNat, preset.height.getD 0)
        else (preset.width.getD 0, preset.height.getD 0)
      else (preset.width.getD 0, preset.height.getD 0)
    let useAlpha := useAlphaFor preset opts
    let singleDim :=
      (truthyDim preset.width && !truthyDim preset.height) ||
        (!truthyDim preset.width && truthyDim preset.height)
    let rect :=
      if singleDim then (⟨0, 0, (dims.1 : ℤ), (dims.2 : ℤ)⟩ : DrawRect)
      else computeDrawRect srcW srcH dims.1 dims.2 preset.fit
    let paints := paintsBackground preset opts rect dims.1 dims.2
    match host.encode dims.1 dims.2 preset.format preset.quality with
    | .error e => .error e
    | .ok blob0 =>
      let blob1 :=
        if preset.format = Format.jpeg then
          let bA :=
            if opts.jpegDpi ≠ 0 then injectJpegDpiIfNeeded host blob0 opts.jpegDpi
            else blob0
          if opts.productName ≠ [] ∨ opts.comment ≠ [] then
            injectJpegComment host bA opts.productName opts.comment
          else bA
        else blob0
      let outputName :=
        inferOutputName f.name index preset.name dims.1 dims.2 preset.format
          opts.namingPattern opts.productName
      let ext := if preset.format = Format.jpeg then jpgWord else formatWord preset.format
      let _ := useAlpha
      let _ := paints
      .ok ⟨blob1, outputName ++ '.' :: ext⟩

/-! ### Batch orchestration (src/pipeline.js lines 283-315) -/

structure BatchState where
  folderUsed : List (List Char × List (List Char))
  entries : List (List Char × List Char × Blob)
  completed : ℕ
  progress : List (ℕ × ℕ)

def initState : BatchState := ⟨[], [], 0, []⟩

def findUsed : List (List Char × List (List Char)) → List Char → Option (List (List Char))
  | [], _ => none
  | (k, v) :: rest, key => if k = key then some v else findUsed rest key

def setUsed : List (List Char × List (List Char)) → List Char → List (List Char) →
    List (List Char × List (List Char))
  | [], key, v => [(key, v)]
  | (k, w) :: rest, key, v =>
    if k = key then (k, v) :: rest else (k, w) :: setUsed rest key v

/-- `sanitizeFilename(preset.name || 'preset')`. -/
def folderNameOf (p : Preset) : List Char :=
  sanitizeFilename (if p.name = [] then presetWord else p.name) 120

/-- One loop body of `processBatch` after a successful `transformSingle`:
split the output name, sanitize the base, resolve the per-folder unique name,
store the archive entry, bump the counter and report progress. -/
def addEntry (s : BatchState) (art : Artifact) (p : Preset) (total : ℕ) : BatchState :=
  let parts := art.outputName.splitOn '.'
  let ext := (parts.getLast?).getD []
  let base0 := List.intercalate ['.'] parts.dropLast
  let base := if base0 = [] then imageWord else base0
  let safeBase := sanitizeFilename base 120
  let folder := folderNameOf p
  let used := (findUsed s.folderUsed folder).getD []
  let r := makeUniqueName safeBase used
  let finalName := r.1 ++ '.' :: ext
  ⟨setUsed s.folderUsed folder r.2,
    s.entries ++ [(folder, finalName, art.blob)],
    s.completed + 1,
    s.progress ++ [(s.completed + 1, total)]⟩

/-- The (file × preset) jobs in enumeration order: all presets for file 0,
then all presets for file 1, and so on (the file index is carried along). -/
def jobsOf (files : List FileRec) (presets : List Preset) : List (ℕ × FileRec × Preset) :=
  files.enum.flatMap fun pr => presets.map fun p => (pr.1, pr.2, p)

/-- The sequential job loop: `transformSingle` is awaited with no surrounding
`try`/`catch`, so a job failure propagates and aborts the whole batch. -/
def runBatch (host : Host) (opts : GlobalOptions) (total : ℕ) :
    List (ℕ × FileRec × Preset) → BatchState → Except (List Char) BatchState
  | [], s => .ok s
  | (i, f, p) :: rest, s =>
    match transformSingle host f p opts i with
    | .error e => .error e
    | .ok art => runBatch host opts total rest (addEntry s art p total)

/-- `processBatch({files, presets, globalOptions, onProgress})`: the resulting
state carries the archive entries (folder, name, payload) and the recorded
`onProgress(completed, total)` invocations. -/
def processBatch (host : Host) (files : List FileRec) (presets : List Preset)
    (opts : GlobalOptions) : Except (List Char) BatchState :=
  runBatch host opts (files.length * presets.length) (jobsOf files presets) initState

/-! ## Proofs -/

/-! ### `Math.round` facts -/

lemma jsRound_le {q : ℚ} {n : ℤ} (h : q ≤ (n : ℚ)) : jsRound q ≤ n := by
  have h3 : jsRound q < n + 1 := by
    rw [jsRound]
    refine Int.floor_lt.mpr ?_
    push_cast
    linarith
  omega

lemma le_jsRound {q : ℚ} {n : ℤ} (h : (n : ℚ) ≤ q) : n ≤ jsRound q := by
  rw [jsRound]
  refine Int.le_floor.mpr ?_
  linarith

lemma jsRound_nonneg {q : ℚ} (h : 0 ≤ q) : 0 ≤ jsRound q :=
  le_jsRound (by exact_mod_cast h)

lemma jsRound_zero : jsRound 0 = 0 := by
  rw [jsRound, zero_add, Int.floor_eq_zero_iff]
  constructor <;> norm_num

/-- Centering a length `0 ≤ t ≤ D` inside `D`: the rounded offset is
non-negative and offset plus length stays within `D`. -/
lemma center_bounds (D : ℕ) (t : ℤ) (ht0 : 0 ≤ t) (htD : t ≤ (D : ℤ)) :
    0 ≤ jsRound (((D : ℚ) - (t : ℚ)) / 2) ∧
      jsRound (((D : ℚ) - (t : ℚ)) / 2) + t ≤ (D : ℤ) := by
  have htDq : (t : ℚ) ≤ (D : ℚ) := by exact_mod_cast htD
  constructor
  · exact jsRound_nonneg (by linarith)
  · have h1 : jsRound (((D : ℚ) - (t : ℚ)) / 2) ≤ (D : ℤ) - t := by
      refine jsRound_le ?_
      push_cast
      linarith
    omega

/-- Centering an overscan length `t ≥ D`: the rounded offset is non-positive. -/
lemma center_nonpos (D : ℕ) (t : ℤ) (htD : (D : ℤ) ≤ t) :
    jsRound (((D : ℚ) - (t : ℚ)) / 2) ≤ 0 := by
  have htDq : (D : ℚ) ≤ (t : ℚ) := by exact_mod_cast htD
  refine jsRound_le (n := 0) ?_
  push_cast
  linarith

/-! ### Fit-rectangle bounds -/

lemma contain_rect_bounds (srcW srcH dstW dstH : ℕ)
    (h1 : 0 < srcW) (h2 : 0 < srcH) (h3 : 0 < dstW) (h4 : 0 < dstH) :
    0 ≤ (computeDrawRect srcW srcH dstW dstH Fit.contain).x ∧
      0 ≤ (computeDrawRect srcW srcH dstW dstH Fit.contain).y ∧
      (computeDrawRect srcW srcH dstW dstH Fit.contain).x +
        (computeDrawRect srcW srcH dstW dstH Fit.contain).w ≤ (dstW : ℤ) ∧
      (computeDrawRect srcW srcH dstW dstH Fit.contain).y +
        (computeDrawRect srcW srcH dstW dstH Fit.contain).h ≤ (dstH : ℤ) := by
  have hsW : (0 : ℚ) < (srcW : ℚ) := by exact_mod_cast h1
  have hsH : (0 : ℚ) < (srcH : ℚ) := by exact_mod_cast h2
  have hdW : (0 : ℚ) < (dstW : ℚ) := by exact_mod_cast h3
  have hdH : (0 : ℚ) < (dstH : ℚ) := by exact_mod_cast h4
  have hRS : (0 : ℚ) < (srcW : ℚ) / (srcH : ℚ) := div_pos hsW hsH
  have hzW : jsRound (((dstW : ℚ) - (dstW : ℚ)) / 2) = 0 := by
    rw [sub_self, zero_div, jsRound_zero]
  have hzH : jsRound (((dstH : ℚ) - (dstH : ℚ)) / 2) = 0 := by
    rw [sub_self, zero_div, jsRound_zero]
  rcases lt_or_le ((dstW : ℚ) / (dstH : ℚ)) ((srcW : ℚ) / (srcH : ℚ)) with hlt | hle
  · have hcross : (dstW : ℚ) * (srcH : ℚ) < (srcW : ℚ) * (dstH : ℚ) :=
      (div_lt_div_iff hdH hsH).mp hlt
    have hq0 : (0 : ℚ) ≤ (dstW : ℚ) / ((srcW : ℚ) / (srcH : ℚ)) :=
      le_of_lt (div_pos hdW hRS)
    have hh0 : 0 ≤ jsRound ((dstW : ℚ) / ((srcW : ℚ) / (srcH : ℚ))) := jsRound_nonneg hq0
    have hqle : (dstW : ℚ) / ((srcW : ℚ) / (srcH : ℚ)) ≤ (dstH : ℚ) := by
      rw [div_div_eq_mul_div, div_le_iff hsW]
      nlinarith
    have hhle : jsRound ((dstW : ℚ) / ((srcW : ℚ) / (srcH : ℚ))) ≤ (dstH : ℤ) := by
      refine jsRound_le ?_
      push_cast
      exact hqle
    have hc := center_bounds dstH (jsRound ((dstW : ℚ) / ((srcW : ℚ) / (srcH : ℚ)))) hh0 hhle
    simp only [computeDrawRect, if_pos hlt, true_or, or_false, false_or]
    push_cast
    exact ⟨by omega, hc.1, by omega, hc.2⟩
  · have hcross : (srcW : ℚ) * (dstH : ℚ) ≤ (dstW : ℚ) * (srcH : ℚ) :=
      (div_le_div_iff hsH hdH).mp hle
    have hq0 : (0 : ℚ) ≤ (dstH : ℚ) * ((srcW : ℚ) / (srcH : ℚ)) :=
      le_of_lt (mul_pos hdH hRS)
    have hw0 : 0 ≤ jsRound ((dstH : ℚ) * ((srcW : ℚ) / (srcH : ℚ))) := jsRound_nonneg hq0
    have hqle : (dstH : ℚ) * ((srcW : ℚ) / (srcH : ℚ)) ≤ (dstW : ℚ) := by
      rw [mul_comm, div_mul_eq_mul_div, div_le_iff hsH]
      nlinarith
    have hwle : jsRound ((dstH : ℚ) * ((srcW : ℚ) / (srcH : ℚ))) ≤ (dstW : ℤ) := by
      refine jsRound_le ?_
      push_cast
      exact hqle
    have hc := center_bounds dstW (jsRound ((dstH : ℚ) * ((srcW : ℚ) / (srcH : ℚ)))) hw0 hwle
    simp only [computeDrawRect, if_neg (not_lt.mpr hle), true_or, or_false, false_or]
    push_cast
    exact ⟨hc.1, by omega, hc.2, by omega⟩

lemma cover_rect_bounds (srcW srcH dstW dstH : ℕ)
    (h1 : 0 < srcW) (h2 : 0 < srcH) (h3 : 0 < dstW) (h4 : 0 < dstH) :
    (dstW : ℤ) ≤ (computeDrawRect srcW srcH dstW dstH Fit.cover).w ∧
      (dstH : ℤ) ≤ (computeDrawRect srcW srcH dstW dstH Fit.cover).h ∧
      (computeDrawRect srcW srcH dstW dstH Fit.cover).x ≤ 0 ∧
      (computeDrawRect srcW srcH dstW dstH Fit.cover).y ≤ 0 := by
  have hsW : (0 : ℚ) < (srcW : ℚ) := by exact_mod_cast h1
  have hsH : (0 : ℚ) < (srcH : ℚ) := by exact_mod_cast h2
  have hdW : (0 : ℚ) < (dstW : ℚ) := by exact_mod_cast h3
  have hdH : (0 : ℚ) < (dstH : ℚ) := by exact_mod_cast h4
  have hRS : (0 : ℚ) < (srcW : ℚ) / (srcH : ℚ) := div_pos hsW hsH
  have hzW : jsRound (((dstW : ℚ) - (dstW : ℚ)) / 2) = 0 := by
    rw [sub_self, zero_div, jsRound_zero]
  have hzH : jsRound (((dstH : ℚ) - (dstH : ℚ)) / 2) = 0 := by
    rw [sub_self, zero_div, jsRound_zero]
  rcases lt_or_le ((dstW : ℚ) / (dstH : ℚ)) ((srcW : ℚ) / (srcH : ℚ)) with hlt | hle
  · have hcross : (dstW : ℚ) * (srcH : ℚ) < (srcW : ℚ) * (dstH : ℚ) :=
      (div_lt_div_iff hdH hsH).mp hlt
    have hqge : (dstW : ℚ) ≤ (dstH : ℚ) * ((srcW : ℚ) / (srcH : ℚ)) := by
      rw [mul_comm, div_mul_eq_mul_div, le_div_iff hsH]
      nlinarith
    have hwge : (dstW : ℤ) ≤ jsRound ((dstH : ℚ) * ((srcW : ℚ) / (srcH : ℚ))) := by
      refine le_jsRound ?_
      push_cast
      exact hqge
    simp only [computeDrawRect, if_pos hlt]
    push_cast
    exact ⟨hwge, by omega, center_nonpos dstW _ hwge, by omega⟩
  · have hcross : (srcW : ℚ) * (dstH : ℚ) ≤ (dstW : ℚ) * (srcH : ℚ) :=
      (div_le_div_iff hsH hdH).mp hle
    have hqge : (dstH : ℚ) ≤ (dstW : ℚ) / ((srcW : ℚ) / (srcH : ℚ)) := by
      rw [div_div_eq_mul_div, le_div_iff hsW]
      nlinarith
    have hhge : (dstH : ℤ) ≤ jsRound ((dstW : ℚ) / ((srcW : ℚ) / (srcH : ℚ))) := by
      refine le_jsRound ?_
      push_cast
      exact hqge
    simp only [computeDrawRect, if_neg (not_lt.mpr hle)]
    push_cast
    exact ⟨by omega, hhge, by omega, center_nonpos dstH _ hhge⟩

/-! ### Claim C3 -/

/-- C3: for all positive source and destination dimensions, the `contain` draw
rectangle is fully inside the destination bounds (`x ≥ 0`, `y ≥ 0`,
`x + w ≤ dstW`, `y + h ≤ dstH`), and the `cover` draw rectangle fully covers
the destination (`w ≥ dstW` and `h ≥ dstH`), including after the per-step
`Math.round` rounding. -/
theorem containRect_inside_and_coverRect_covers (srcW srcH dstW dstH : ℕ)
    (h1 : 0 < srcW) (h2 : 0 < srcH) (h3 : 0 < dstW) (h4 : 0 < dstH) :
    (0 ≤ (computeDrawRect srcW srcH dstW dstH Fit.contain).x ∧
      0 ≤ (computeDrawRect srcW srcH dstW dstH Fit.contain).y ∧
      (computeDrawRect srcW srcH dstW dstH Fit.contain).x +
        (computeDrawRect srcW srcH dstW dstH Fit.contain).w ≤ (dstW : ℤ) ∧
      (computeDrawRect srcW srcH dstW dstH Fit.contain).y +
        (computeDrawRect srcW srcH dstW dstH Fit.contain).h ≤ (dstH : ℤ)) ∧
    ((dstW : ℤ) ≤ (computeDrawRect srcW srcH dstW dstH Fit.cover).w ∧
      (dstH : ℤ) ≤ (computeDrawRect srcW srcH dstW dstH Fit.cover).h) := by
  have hco := cover_rect_bounds srcW srcH dstW dstH h1 h2 h3 h4
  exact ⟨contain_rect_bounds srcW srcH dstW dstH h1 h2 h3 h4, hco.1, hco.2.1⟩

/-- Witness for C3 at the concrete input (srcW, srcH, dstW, dstH) = (3, 2, 4, 4). -/
theorem containRect_inside_and_coverRect_covers_witness :
    (0 < 3 ∧ 0 < 2 ∧ 0 < 4 ∧ 0 < 4) ∧
    ((0 ≤ (computeDrawRect 3 2 4 4 Fit.contain).x ∧
       0 ≤ (computeDrawRect 3 2 4 4 Fit.contain).y ∧
       (computeDrawRect 3 2 4 4 Fit.contain).x +
         (computeDrawRect 3 2 4 4 Fit.contain).w ≤ (4 : ℤ) ∧
       (computeDrawRect 3 2 4 4 Fit.contain).y +
         (computeDrawRect 3 2 4 4 Fit.contain).h ≤ (4 : ℤ)) ∧
     ((4 : ℤ) ≤ (computeDrawRect 3 2 4 4 Fit.cover).w ∧
       (4 : ℤ) ≤ (computeDrawRect 3 2 4 4 Fit.cover).h)) :=
  ⟨⟨by decide, by decide, by decide, by decide⟩,
    containRect_inside_and_coverRect_covers 3 2 4 4
      (by decide) (by decide) (by decide) (by decide)⟩

/-! ### Claim C5 -/

/-- C5: for all positive source and destination dimensions, the draw rectangle
for fit mode `outside` is identical to the one for `cover` on the same inputs
(the two branches of `computeDrawRect` are the same expression). -/
theorem outsideRect_eq_coverRect (srcW srcH dstW dstH : ℕ)
    (_h1 : 0 < srcW) (_h2 : 0 < srcH) (_h3 : 0 < dstW) (_h4 : 0 < dstH) :
    computeDrawRect srcW srcH dstW dstH Fit.outside =
      computeDrawRect srcW srcH dstW dstH Fit.cover := rfl

/-- Witness for C5 at the concrete input (1600, 1200, 800, 800). -/
theorem outsideRect_eq_coverRect_witness :
    (0 < 1600 ∧ 0 < 1200 ∧ 0 < 800 ∧ 0 < 800) ∧
    computeDrawRect 1600 1200 800 800 Fit.outside =
      computeDrawRect 1600 1200 800 800 Fit.cover :=
  ⟨⟨by decide, by decide, by decide, by decide⟩,
    outsideRect_eq_coverRect 1600 1200 800 800
      (by decide) (by decide) (by decide) (by decide)⟩

/-! ### Claim C4 -/

/-- C4: a job whose preset format is the opaque-only format (`jpeg`) always
paints the background over the entire destination before drawing
(`paintsBackground` is true, and the fill is `fillRect(0, 0, w, h)`); a job
with an alpha-capable format, transparency preservation not disabled, and fit
`cover` keeps alpha enabled, its draw rectangle leaves no margins, and no
background is ever painted, so the destination starts (and its margins stay)
transparent. -/
theorem background_fill_policy (p : Preset) (g : GlobalOptions)
    (srcW srcH dstW dstH : ℕ) (r : DrawRect)
    (h1 : 0 < srcW) (h2 : 0 < srcH) (h3 : 0 < dstW) (h4 : 0 < dstH) :
    (p.format = Format.jpeg → paintsBackground p g r dstW dstH = true) ∧
    (p.format ≠ Format.jpeg → g.preserveTransparency ≠ some false →
      p.fit = Fit.cover →
      useAlphaFor p g = true ∧
      leavesMargins (computeDrawRect srcW srcH dstW dstH p.fit) dstW dstH = false ∧
      paintsBackground p g (computeDrawRect srcW srcH dstW dstH p.fit) dstW dstH = false) := by
  constructor
  · intro hj
    simp [paintsBackground, useAlphaFor, hj]
  · intro hnj hpt hfit
    have hca := cover_rect_bounds srcW srcH dstW dstH h1 h2 h3 h4
    rw [hfit]
    have hA : useAlphaFor p g = true := by simp [useAlphaFor, hnj, hpt]
    have hM : leavesMargins (computeDrawRect srcW srcH dstW dstH Fit.cover) dstW dstH
        = false := by
      simp only [leavesMargins, Bool.or_eq_false_iff, decide_eq_false_iff_not, not_lt]
      exact ⟨⟨⟨hca.2.2.1, hca.2.2.2⟩, hca.1⟩, hca.2.1⟩
    refine ⟨hA, hM, ?_⟩
    simp [paintsBackground, hA, hpt, hM]

def optsW : GlobalOptions := ⟨0, none, none, none, [], []⟩

def presetJpegW : Preset :=
  ⟨['j'], some 4, some 4, Fit.contain, Format.jpeg, 8 / 10, 0, none, none⟩

def presetCoverW : Preset :=
  ⟨['c'], some 4, some 4, Fit.cover, Format.png, 8 / 10, 0, none, none⟩

def rectW : DrawRect := ⟨0, 0, 4, 4⟩

/-- Witness for C4: a jpeg preset paints the background; a png `cover` preset
with transparency preserved paints none and leaves no margins. -/
theorem background_fill_policy_witness :
    (0 < 8 ∧ 0 < 4) ∧
    paintsBackground presetJpegW optsW rectW 4 4 = true ∧
    (useAlphaFor presetCoverW optsW = true ∧
      leavesMargins (computeDrawRect 8 8 4 4 presetCoverW.fit) 4 4 = false ∧
      paintsBackground presetCoverW optsW (computeDrawRect 8 8 4 4 presetCoverW.fit) 4 4
        = false) :=
  ⟨⟨by decide, by decide⟩,
    (background_fill_policy presetJpegW optsW 8 8 4 4 rectW
      (by decide) (by decide) (by decide) (by decide)).1 rfl,
    (background_fill_policy presetCoverW optsW 8 8 4 4 rectW
      (by decide) (by decide) (by decide) (by decide)).2 (by decide) (by decide) rfl⟩

/-! ### Claim C6 -/

/-- C6: orientation normalisation of a W×H bitmap yields an H×W canvas for
codes 5-8 and a W×H canvas for codes 1-4 (and for an absent code), and the
step runs through the same canvas-allocating path even for code 1. -/
theorem orientation_dims (bm : ImageBitmap) (o : ℕ) (h1 : 1 ≤ o) (h8 : o ≤ 8) :
    ((o ≤ 4 → (correctOrientationToCanvas bm (some o)).width = bm.width ∧
        (correctOrientationToCanvas bm (some o)).height = bm.height) ∧
      (5 ≤ o → (correctOrientationToCanvas bm (some o)).width = bm.height ∧
        (correctOrientationToCanvas bm (some o)).height = bm.width)) ∧
    ((correctOrientationToCanvas bm none).width = bm.width ∧
      (correctOrientationToCanvas bm none).height = bm.height) := by
  refine ⟨⟨?_, ?_⟩, rfl, rfl⟩ <;> intro h <;> interval_cases o <;>
    simp [correctOrientationToCanvas]

def bmW : ImageBitmap := ⟨30, 20⟩

/-- Witness for C6 at code 6 on a 30×20 bitmap: dimensions swap to 20×30. -/
theorem orientation_dims_witness :
    (1 ≤ 6 ∧ 6 ≤ 8) ∧
    (correctOrientationToCanvas bmW (some 6)).width = 20 ∧
    (correctOrientationToCanvas bmW (some 6)).height = 30 :=
  ⟨⟨by decide, by decide⟩,
    ((orientation_dims bmW 6 (by decide) (by decide)).1.2 (by decide)).1,
    ((orientation_dims bmW 6 (by decide) (by decide)).1.2 (by decide)).2⟩

/-! ### Claim C2 (refuted by the code: the sharpen pass zeroes the border) -/

def sharpSrc10 : ℕ → ℕ := fun _ => 10

/-- C2 fails on the code: on a 3×3 raster whose bytes are all 10, sharpening at
intensity 1 sets border pixel (0,0)'s red channel and alpha channel to 0
instead of leaving them at 10 (`out` is a fresh zero-initialised buffer and
`imageData.data.set(out)` copies it over the whole image), while the interior
pixel (1,1) keeps its alpha of 10. -/
theorem applySharpen_zeroes_border_and_alpha :
    applySharpen 3 3 1 sharpSrc10 0 = 0 ∧ sharpSrc10 0 = 10 ∧
    applySharpen 3 3 1 sharpSrc10 3 = 0 ∧ sharpSrc10 3 = 10 ∧
    applySharpen 3 3 1 sharpSrc10 19 = 10 := by decide

/-! ### Claim C10 -/

lemma mem_dropWhile {p : Char → Bool} {c : Char} :
    ∀ l : List Char, c ∈ l.dropWhile p → c ∈ l := by
  intro l
  induction l with
  | nil => intro h; simp at h
  | cons hd t ih =>
    intro h
    rw [List.dropWhile_cons] at h
    by_cases hp : p hd = true
    · rw [if_pos hp] at h
      exact List.mem_cons_of_mem _ (ih h)
    · rw [if_neg hp] at h
      exact h

lemma mem_stripEnds {p : Char → Bool} {c : Char} {l : List Char}
    (h : c ∈ stripEnds p l) : c ∈ l := by
  rw [stripEnds, List.mem_reverse] at h
  have h2 := mem_dropWhile _ h
  rw [List.mem_reverse] at h2
  exact mem_dropWhile _ h2

lemma mem_collapseWsAux {c : Char} :
    ∀ (l : List Char) (b : Bool), c ∈ collapseWsAux b l → c = ' ' ∨ c ∈ l := by
  intro l
  induction l with
  | nil =>
    intro b h
    simp [collapseWsAux] at h
  | cons hd t ih =>
    intro b h
    by_cases hs : jsIsSpace hd = true
    · cases b with
      | true =>
        simp only [collapseWsAux, hs, if_true] at h
        rcases ih true h with h1 | h1
        · exact Or.inl h1
        · exact Or.inr (List.mem_cons_of_mem _ h1)
      | false =>
        simp only [collapseWsAux, hs, if_true, Bool.false_eq_true, if_false,
          List.mem_cons] at h
        rcases h with h1 | h1
        · exact Or.inl h1
        · rcases ih true h1 with h2 | h2
          · exact Or.inl h2
          · exact Or.inr (List.mem_cons_of_mem _ h2)
    · simp only [collapseWsAux, hs, Bool.false_eq_true, if_false, List.mem_cons] at h
      rcases h with h1 | h1
      · exact Or.inr (h1 ▸ List.mem_cons_self hd t)
      · rcases ih false h1 with h2 | h2
        · exact Or.inl h2
        · exact Or.inr (List.mem_cons_of_mem _ h2)

lemma sanitize_tail_safe (A : List Char) (hmem : ∀ c ∈ A, forbiddenChar c = false) :
    (let s5 := if A = [] then imageWord else A
     let s6 := if isReserved s5 then s5 ++ ['_'] else s5
     let r := if 120 < s6.length then s6.take 120 else s6
     r ≠ [] ∧ r.length ≤ 120 ∧ ∀ c ∈ r, forbiddenChar c = false) := by
  dsimp only
  set s5 := if A = [] then imageWord else A with hs5
  have h5ne : s5 ≠ [] := by
    rw [hs5]
    by_cases hA0 : A = []
    · rw [if_pos hA0]
      decide
    · rw [if_neg hA0]
      exact hA0
  have h5mem : ∀ c ∈ s5, forbiddenChar c = false := by
    rw [hs5]
    by_cases hA0 : A = []
    · rw [if_pos hA0]
      decide
    · rw [if_neg hA0]
      exact hmem
  set s6 := if isReserved s5 then s5 ++ ['_'] else s5 with hs6
  have h6ne : s6 ≠ [] := by
    rw [hs6]
    by_cases hr : isReserved s5 = true
    · rw [if_pos hr]
      simp
    · rw [if_neg hr]
      exact h5ne
  have h6mem : ∀ c ∈ s6, forbiddenChar c = false := by
    rw [hs6]
    by_cases hr : isReserved s5 = true
    · rw [if_pos hr]
      intro c hc
      rcases List.mem_append.mp hc with h1 | h1
      · exact h5mem c h1
      · have : c = '_' := by simpa using h1
        subst this
        decide
    · rw [if_neg hr]
      exact h5mem
  by_cases hlen : 120 < s6.length
  · rw [if_pos hlen]
    have hlt : (s6.take 120).length = 120 := by
      rw [List.length_take]
      omega
    refine ⟨?_, ?_, ?_⟩
    · intro hnil
      rw [hnil] at hlt
      simp at hlt
    · omega
    · intro c hc
      exact h6mem c (List.take_subset _ _ hc)
  · rw [if_neg hlen]
    exact ⟨h6ne, by omega, h6mem⟩

/-- C10: for every input (including empty, all-whitespace, all-dots and
reserved device names) `sanitizeFilename` with the default cap 120 returns a
non-empty name of length at most 120 containing none of the forbidden
filesystem characters, so every archive folder name and entry base name is
well-formed. -/
theorem sanitizeFilename_safe (name : List Char) :
    sanitizeFilename name 120 ≠ [] ∧ (sanitizeFilename name 120).length ≤ 120 ∧
      ∀ c ∈ sanitizeFilename name 120, forbiddenChar c = false := by
  have hs1 : ∀ c ∈ (name.map fun c => if forbiddenChar c then '-' else c),
      forbiddenChar c = false := by
    intro c hc
    rcases List.mem_map.mp hc with ⟨a, _, rfl⟩
    by_cases hf : forbiddenChar a = true
    · rw [if_pos hf]
      decide
    · rw [if_neg hf]
      simpa using hf
  have hcore : ∀ c ∈ stripEnds wsOrDot (stripEnds jsIsSpace (collapseWs
      (name.map fun c => if forbiddenChar c then '-' else c))),
      forbiddenChar c = false := by
    intro c hc
    have hc3 := mem_stripEnds (mem_stripEnds hc)
    rcases mem_collapseWsAux _ _ hc3 with h | h
    · subst h
      decide
    · exact hs1 _ h
  exact sanitize_tail_safe _ hcore

/-! ### Claim C8 -/

lemma digitChar_inj : ∀ a < 10, ∀ b < 10, digitChar a = digitChar b → a = b := by
  decide

lemma natToCharsAux_congr :
    ∀ fuel fuel' n, n ≤ fuel → n ≤ fuel' → natToCharsAux fuel n = natToCharsAux fuel' n := by
  intro fuel
  induction fuel with
  | zero =>
    intro fuel' n hn _
    have : n = 0 := by omega
    subst this
    cases fuel' with
    | zero => rfl
    | succ fuel'' => simp [natToCharsAux]
  | succ fuel ih =>
    intro fuel' n hn hn'
    cases fuel' with
    | zero =>
      have : n = 0 := by omega
      subst this
      simp [natToCharsAux]
    | succ fuel'' =>
      by_cases h10 : n < 10
      · simp only [natToCharsAux, if_pos h10]
      · simp only [natToCharsAux, if_neg h10]
        have hd1 : n / 10 ≤ fuel := by omega
        have hd2 : n / 10 ≤ fuel'' := by omega
        rw [ih fuel'' (n / 10) hd1 hd2]

/-- The JS-faithful unfolding of decimal rendering. -/
lemma natToChars_eq (n : ℕ) :
    natToChars n = if n < 10 then [digitChar n]
      else natToChars (n / 10) ++ [digitChar (n % 10)] := by
  by_cases h10 : n < 10
  · rw [if_pos h10, natToChars]
    cases n with
    | zero => rfl
    | succ m => simp only [natToCharsAux, if_pos h10]
  · rw [if_neg h10, natToChars]
    obtain ⟨m, rfl⟩ : ∃ m, n = m + 1 := ⟨n - 1, by omega⟩
    simp only [natToCharsAux, if_neg h10]
    rw [natToChars]
    have : (m + 1) / 10 ≤ m := by omega
    rw [natToCharsAux_congr m ((m + 1) / 10) ((m + 1) / 10) this le_rfl]

lemma natToChars_ne_nil (n : ℕ) : natToChars n ≠ [] := by
  rw [natToChars_eq]
  by_cases h : n < 10
  · rw [if_pos h]
    simp
  · rw [if_neg h]
    simp

lemma natToChars_inj (m : ℕ) : ∀ n, natToChars m = natToChars n → m = n := by
  induction m using Nat.strong_induction_on with
  | _ m ih =>
    intro n h
    rw [natToChars_eq m, natToChars_eq n] at h
    by_cases hm : m < 10 <;> by_cases hn : n < 10
    · rw [if_pos hm, if_pos hn] at h
      exact digitChar_inj m hm n hn (by simpa using h)
    · rw [if_pos hm, if_neg hn] at h
      have hlen := congrArg List.length h
      simp only [List.length_append, List.length_cons, List.length_nil] at hlen
      have hpos : 0 < (natToChars (n / 10)).length :=
        List.length_pos.mpr (natToChars_ne_nil _)
      omega
    · rw [if_neg hm, if_pos hn] at h
      have hlen := congrArg List.length h
      simp only [List.length_append, List.length_cons, List.length_nil] at hlen
      have hpos : 0 < (natToChars (m / 10)).length :=
        List.length_pos.mpr (natToChars_ne_nil _)
      omega
    · rw [if_neg hm, if_neg hn] at h
      have hparts := List.append_inj' h (by simp)
      have hdiv : m / 10 = n / 10 :=
        ih (m / 10) (Nat.div_lt_self (by omega) (by omega)) (n / 10) hparts.1
      have hmod : m % 10 = n % 10 := by
        have hd : digitChar (m % 10) = digitChar (n % 10) := by
          have := hparts.2
          simpa using this
        exact digitChar_inj (m % 10) (Nat.mod_lt _ (by omega)) (n % 10)
          (Nat.mod_lt _ (by omega)) hd
      omega

lemma candName_inj (base : List Char) : Function.Injective (candName base) := by
  intro i j h
  match i, j with
  | 0, 0 => rfl
  | 0, j + 1 =>
    exfalso
    have hlen := congrArg List.length h
    have hpos : 0 < (natToChars (j + 2)).length :=
      List.length_pos.mpr (natToChars_ne_nil _)
    simp only [candName, List.length_append, List.length_cons] at hlen
    omega
  | i + 1, 0 =>
    exfalso
    have hlen := congrArg List.length h
    have hpos : 0 < (natToChars (i + 2)).length :=
      List.length_pos.mpr (natToChars_ne_nil _)
    simp only [candName, List.length_append, List.length_cons] at hlen
    omega
  | i + 1, j + 1 =>
    simp only [candName, List.append_cancel_left_eq, List.cons.injEq, true_and] at h
    have := natToChars_inj (i + 2) (j + 2) h
    omega

/-- Pigeonhole: some candidate with index at most `used.length` is unused. -/
lemma exists_free_cand (base : List Char) (used : List (List Char)) :
    ∃ k, k ≤ used.length ∧ candName base k ∉ used := by
  by_contra hcon
  push_neg at hcon
  have hall : ∀ k ∈ List.range (used.length + 1), candName base k ∈ used := by
    intro k hk
    exact hcon k (by simpa using Nat.lt_succ_iff.mp (List.mem_range.mp hk))
  have hnodup : ((List.range (used.length + 1)).map (candName base)).Nodup :=
    (List.nodup_range _).map (candName_inj base)
  have hsub : ((List.range (used.length + 1)).map (candName base)).toFinset ⊆
      used.toFinset := by
    intro x hx
    rw [List.mem_toFinset] at hx ⊢
    rcases List.mem_map.mp hx with ⟨k, hk, rfl⟩
    exact hall k hk
  have hcard1 : ((List.range (used.length + 1)).map (candName base)).toFinset.card
      = used.length + 1 := by
    rw [List.toFinset_card_of_nodup hnodup]
    simp
  have hcard2 := Finset.card_le_card hsub
  have hcard3 := used.toFinset_card_le
  omega

/-- The loop returns the first free candidate when the fuel covers it. -/
lemma mkUniqueAux_eq (base : List Char) (used : List (List Char)) :
    ∀ fuel i k, i ≤ k → k ≤ i + fuel → candName base k ∉ used →
      (∀ j, i ≤ j → j < k → candName base j ∈ used) →
      mkUniqueAux base used fuel i = candName base k := by
  intro fuel
  induction fuel with
  | zero =>
    intro i k hik hki _ _
    have : k = i := by omega
    subst this
    rfl
  | succ fuel ih =>
    intro i k hik hki hfree hmin
    rw [mkUniqueAux]
    by_cases hmem : candName base i ∈ used
    · rw [if_pos hmem]
      have hik' : i + 1 ≤ k := by
        rcases Nat.eq_or_lt_of_le hik with h | h
        · exact absurd (h ▸ hmem) hfree
        · omega
      exact ih (i + 1) k hik' (by omega) hfree fun j hj1 hj2 => hmin j (by omega) hj2
    · rw [if_neg hmem]
      have : k = i := by
        by_contra hne
        exact hmem (hmin i le_rfl (by omega))
      rw [this]

/-- C8: when the requested base name is already present in the folder's
used-name set, `makeUniqueName` returns the base with the smallest suffix
`-k` (`k ≥ 2`) whose name is not yet used, every smaller suffix being taken,
and the returned name is reserved in the updated set immediately. -/
theorem makeUniqueName_smallest_suffix (base : List Char) (used : List (List Char))
    (hmem : base ∈ used) :
    ∃ k, 2 ≤ k ∧
      (makeUniqueName base used).1 = base ++ '-' :: natToChars k ∧
      base ++ '-' :: natToChars k ∉ used ∧
      (∀ j, 2 ≤ j → j < k → base ++ '-' :: natToChars j ∈ used) ∧
      (makeUniqueName base used).1 ∈ (makeUniqueName base used).2 := by
  have hex : ∃ i, candName base i ∉ used := by
    rcases exists_free_cand base used with ⟨i, _, hi⟩
    exact ⟨i, hi⟩
  classical
  let K := Nat.find hex
  have hKfree : candName base K ∉ used := Nat.find_spec hex
  have hKmin : ∀ j < K, candName base j ∈ used := by
    intro j hj
    have := Nat.find_min hex hj
    simpa using this
  have hKle : K ≤ used.length := by
    rcases exists_free_cand base used with ⟨i, hile, hi⟩
    exact le_trans (Nat.find_min' hex hi) hile
  have hKpos : 0 < K := by
    rcases Nat.eq_zero_or_pos K with h0 | h0
    · exfalso
      apply hKfree
      rw [h0]
      exact hmem
    · exact h0
  have hres : (makeUniqueName base used).1 = candName base K :=
    mkUniqueAux_eq base used (used.length + 1) 0 K (by omega) (by omega) hKfree
      fun j _ hj => hKmin j hj
  have hKeq : K = (K - 1) + 1 := by omega
  refine ⟨(K - 1) + 2, by omega, ?_, ?_, ?_, ?_⟩
  · rw [hres, hKeq]
    rfl
  · have hfree := hKfree
    rw [hKeq] at hfree
    simpa [candName] using hfree
  · intro j hj2 hjk
    have hj := hKmin (j - 1) (by omega)
    have hje : j - 1 = (j - 2) + 1 := by omega
    rw [hje] at hj
    simp only [candName] at hj
    have hje2 : j - 2 + 2 = j := by omega
    rwa [hje2] at hj
  · rw [makeUniqueName]
    simp

def photoBase : List Char := ['p', 'h', 'o', 't', 'o']

def photo2Name : List Char := ['p', 'h', 'o', 't', 'o', '-', '2']

def photo3Name : List Char := ['p', 'h', 'o', 't', 'o', '-', '3']

/-- Witness for C8: with `"photo"` already used once, the next request returns
`"photo-2"` (via the theorem) and a third request returns `"photo-3"`. -/
theorem makeUniqueName_smallest_suffix_witness :
    (photoBase ∈ [photoBase] ∧
      ∃ k, 2 ≤ k ∧
        (makeUniqueName photoBase [photoBase]).1 = photoBase ++ '-' :: natToChars k ∧
        photoBase ++ '-' :: natToChars k ∉ [photoBase] ∧
        (∀ j, 2 ≤ j → j < k → photoBase ++ '-' :: natToChars j ∈ [photoBase]) ∧
        (makeUniqueName photoBase [photoBase]).1 ∈ (makeUniqueName photoBase [photoBase]).2) ∧
    (makeUniqueName photoBase [photoBase]).1 = photo2Name ∧
    (makeUniqueName photoBase (makeUniqueName photoBase [photoBase]).2).1 = photo3Name :=
  ⟨⟨by decide, makeUniqueName_smallest_suffix photoBase [photoBase] (by decide)⟩,
    by decide, by decide⟩

/-! ### Claim C9 -/

/-- C9: metadata injection is best-effort — when the piexifjs round-trip for
the DPI fields or for the description field fails (the `catch` branch), the
injector resolves with the original encoded payload unchanged; being total
functions into `Blob`, neither injector can throw out of the job. -/
theorem inject_metadata_best_effort (host : Host) (blob : Blob) (dpi : ℤ)
    (pn cm : List Char)
    (hdpi : host.dpiRewrite blob dpi = .error ())
    (hdesc : host.descRewrite blob (jpegDescription pn cm) = .error ()) :
    injectJpegDpiIfNeeded host blob dpi = blob ∧
      injectJpegComment host blob pn cm = blob := by
  constructor
  · rw [injectJpegDpiIfNeeded]
    by_cases h : dpi ≤ 0
    · rw [if_pos h]
    · rw [if_neg h, hdpi]
  · rw [injectJpegComment, hdesc]

/-- A host whose piexifjs round-trips always fail. -/
def failingPiexifHost : Host :=
  { decodeOriented := fun _ => .ok ⟨1, 1⟩
    decodePlain := fun _ => .ok ⟨1, 1⟩
    parseExif := fun _ => none
    encode := fun _ _ _ _ => .ok []
    dpiRewrite := fun _ _ => .error ()
    descRewrite := fun _ _ => .error () }

def payloadW : Blob := [255, 216, 7, 7]

def prodW : List Char := ['P']

def commentW : List Char := ['c']

/-- Witness for C9 with a concretely failing piexifjs host: both injectors
return the original payload. -/
theorem inject_metadata_best_effort_witness :
    (failingPiexifHost.dpiRewrite payloadW 300 = .error () ∧
      failingPiexifHost.descRewrite payloadW (jpegDescription prodW commentW) = .error ()) ∧
    injectJpegDpiIfNeeded failingPiexifHost payloadW 300 = payloadW ∧
      injectJpegComment failingPiexifHost payloadW prodW commentW = payloadW :=
  ⟨⟨rfl, rfl⟩, inject_metadata_best_effort failingPiexifHost payloadW 300 prodW commentW rfl rfl⟩

/-! ### Claim C1 -/

lemma runBatch_isOk (host : Host) (opts : GlobalOptions) (total : ℕ) :
    ∀ (jobs : List (ℕ × FileRec × Preset)) (s : BatchState),
      isOkE (runBatch host opts total jobs s) = true ↔
        ∀ j ∈ jobs, isOkE (transformSingle host j.2.1 j.2.2 opts j.1) = true := by
  intro jobs
  induction jobs with
  | nil =>
    intro s
    simp [runBatch, isOkE]
  | cons j rest ih =>
    intro s
    obtain ⟨i, f, p⟩ := j
    cases htr : transformSingle host f p opts i with
    | error e => simp [runBatch, htr, isOkE, List.forall_mem_cons]
    | ok art =>
      simp only [runBatch, htr]
      rw [ih]
      simp [htr, isOkE, List.forall_mem_cons]

/-- C1 (amended): because `processBatch` awaits `transformSingle` with no
surrounding try/catch, a decode failure on any (file, preset) job is not
contained to that job: the host's error propagates out of `processBatch`,
aborting the whole batch, and no archive is produced.  The batch succeeds
exactly when every job succeeds. -/
theorem processBatch_ok_iff_all_jobs_ok (host : Host) (files : List FileRec)
    (presets : List Preset) (opts : GlobalOptions) :
    isOkE (processBatch host files presets opts) = true ↔
      ∀ j ∈ jobsOf files presets,
        isOkE (transformSingle host j.2.1 j.2.2 opts j.1) = true := by
  rw [processBatch]
  exact runBatch_isOk host opts _ (jobsOf files presets) initState

def badName : List Char := ['b', 'a', 'd', '.', 'j', 'p', 'g']

def decodeMsg : List Char := ['D', 'E', 'C']

/-- Host that rejects the decode of `bad.jpg` (both with and without the
orientation option) and decodes everything else to an 8×8 bitmap. -/
def hostC1 : Host :=
  { decodeOriented := fun f => if f.name = badName then .error decodeMsg else .ok ⟨8, 8⟩
    decodePlain := fun f => if f.name = badName then .error decodeMsg else .ok ⟨8, 8⟩
    parseExif := fun _ => none
    encode := fun _ _ _ _ => .ok [7]
    dpiRewrite := fun b _ => .ok b
    descRewrite := fun b _ => .ok b }

def badFile : FileRec := ⟨badName, [0]⟩

def goodFile : FileRec := ⟨['g', 'o', 'o', 'd', '.', 'p', 'n', 'g'], [1]⟩

def presetC1 : Preset :=
  ⟨['w', 'e', 'b'], some 4, some 4, Fit.cover, Format.png, 8 / 10, 0, none, none⟩

/-- C1 counterexample: in the batch [bad.jpg, good.png] × [one preset], the
decode failure of `bad.jpg` makes the whole `processBatch` return the host's
error — no archive containing the (provably successful) good.png job is
produced, contradicting the claim that the orchestrator continues and still
produces an archive with the successful jobs' artifacts. -/
theorem processBatch_decode_failure_counterexample :
    processBatch hostC1 [badFile, goodFile] [presetC1] optsW = .error decodeMsg ∧
      isOkE (transformSingle hostC1 goodFile presetC1 optsW 1) = true := by
  constructor
  · rfl
  · rfl

/-! ### Claim C7 -/

lemma addEntry_progress (s : BatchState) (art : Artifact) (p : Preset) (total : ℕ) :
    (addEntry s art p total).progress = s.progress ++ [(s.completed + 1, total)] := rfl

lemma addEntry_completed (s : BatchState) (art : Artifact) (p : Preset) (total : ℕ) :
    (addEntry s art p total).completed = s.completed + 1 := rfl

lemma addEntry_folders (s : BatchState) (art : Artifact) (p : Preset) (total : ℕ) :
    (addEntry s art p total).entries.map (fun e => e.1) =
      s.entries.map (fun e => e.1) ++ [folderNameOf p] := by
  simp [addEntry]

lemma addEntry_count (s : BatchState) (art : Artifact) (p : Preset) (total : ℕ) :
    (addEntry s art p total).entries.length = s.entries.length + 1 := by
  simp [addEntry]

lemma range_succ_progress (c total n : ℕ) :
    (List.range (n + 1)).map (fun k => (c + k + 1, total)) =
      (c + 1, total) :: (List.range n).map (fun k => (c + 1 + k + 1, total)) := by
  rw [List.range_succ_eq_map]
  simp only [List.map_cons, List.map_map, Nat.add_zero]
  congr 1
  refine List.map_congr_left ?_
  intro a _
  simp only [Function.comp_apply, Prod.mk.injEq, and_true]
  omega

/-- Invariant of the job loop when every job succeeds: one progress report per
job with strictly increasing `completed` and constant `total`, one archive
entry per job, and each entry's folder is its preset's sanitized name. -/
lemma runBatch_ok_spec (host : Host) (opts : GlobalOptions) (total : ℕ) :
    ∀ (jobs : List (ℕ × FileRec × Preset)) (s : BatchState),
      (∀ j ∈ jobs, isOkE (transformSingle host j.2.1 j.2.2 opts j.1) = true) →
      ∃ r, runBatch host opts total jobs s = .ok r ∧
        r.progress = s.progress ++
          (List.range jobs.length).map (fun k => (s.completed + k + 1, total)) ∧
        r.completed = s.completed + jobs.length ∧
        r.entries.map (fun e => e.1) = s.entries.map (fun e => e.1) ++
          jobs.map (fun j => folderNameOf j.2.2) ∧
        r.entries.length = s.entries.length + jobs.length := by
  intro jobs
  induction jobs with
  | nil =>
    intro s _
    exact ⟨s, rfl, by simp, by simp, by simp, by simp⟩
  | cons j rest ih =>
    intro s hok
    obtain ⟨i, f, p⟩ := j
    have hj := hok (i, f, p) (List.mem_cons_self _ _)
    obtain ⟨art, hart⟩ : ∃ a, transformSingle host f p opts i = .ok a := by
      cases htr : transformSingle host f p opts i with
      | ok a => exact ⟨a, rfl⟩
      | error e =>
        rw [htr] at hj
        simp [isOkE] at hj
    have hrest : ∀ j ∈ rest, isOkE (transformSingle host j.2.1 j.2.2 opts j.1) = true :=
      fun j hjm => hok j (List.mem_cons_of_mem _ hjm)
    obtain ⟨r, hr, hp, hc, hf, hl⟩ := ih (addEntry s art p total) hrest
    refine ⟨r, ?_, ?_, ?_, ?_, ?_⟩
    · simp only [runBatch, hart]
      exact hr
    · rw [hp, addEntry_progress, addEntry_completed, List.append_assoc,
        List.singleton_append, List.length_cons, range_succ_progress]
    · rw [hc, addEntry_completed, List.length_cons]
      omega
    · rw [hf, addEntry_folders, List.append_assoc, List.singleton_append, List.map_cons]
    · rw [hl, addEntry_count, List.length_cons]
      omega

lemma jobsOf_length (files : List FileRec) (presets : List Preset) :
    (jobsOf files presets).length = files.length * presets.length := by
  rw [jobsOf, List.length_flatMap]
  have h1 : (List.map (List.length ∘ fun pr => List.map (fun p => (pr.1, pr.2, p)) presets)
      files.enum) = List.map (fun _ => presets.length) files.enum := by
    refine List.map_congr_left fun a _ => ?_
    simp
  rw [h1, List.map_const', List.sum_replicate, smul_eq_mul, List.enum_length]

/-- C7: when every job of a batch succeeds, the progress callback is invoked
exactly `files × presets` times, the i-th invocation carrying
`(completed = i, total = files × presets)` with `completed` strictly increasing
from 1 and `total` constant; the batch produces exactly one archive entry per
job, and each entry's folder is its preset's sanitized name (so presets with
distinct sanitized names give distinct folders). -/
theorem processBatch_progress_and_entries (host : Host) (files : List FileRec)
    (presets : List Preset) (opts : GlobalOptions)
    (hok : ∀ j ∈ jobsOf files presets,
      isOkE (transformSingle host j.2.1 j.2.2 opts j.1) = true) :
    ∃ r, processBatch host files presets opts = .ok r ∧
      r.progress = (List.range (files.length * presets.length)).map
        (fun k => (k + 1, files.length * presets.length)) ∧
      r.entries.length = files.length * presets.length ∧
      r.entries.map (fun e => e.1) =
        (jobsOf files presets).map (fun j => folderNameOf j.2.2) := by
  obtain ⟨r, hr, hp, hc, hf, hl⟩ :=
    runBatch_ok_spec host opts (files.length * presets.length)
      (jobsOf files presets) initState hok
  refine ⟨r, hr, ?_, ?_, ?_⟩
  · rw [hp, jobsOf_length]
    simp [initState]
  · rw [hl, jobsOf_length]
    simp [initState]
  · rw [hf]
    simp [initState]

def hostC7 : Host :=
  { decodeOriented := fun _ => .ok ⟨8, 8⟩
    decodePlain := fun _ => .ok ⟨8, 8⟩
    parseExif := fun _ => none
    encode := fun _ _ _ _ => .ok [7]
    dpiRewrite := fun b _ => .ok b
    descRewrite := fun b _ => .ok b }

def fileC7a : FileRec := ⟨['f', '1', '.', 'p', 'n', 'g'], [1]⟩

def fileC7b : FileRec := ⟨['f', '2', '.', 'p', 'n', 'g'], [2]⟩

def presetSmW : Preset :=
  ⟨['s', 'm'], some 4, some 4, Fit.cover, Format.png, 8 / 10, 0, none, none⟩

def presetLgW : Preset :=
  ⟨['l', 'g'], some 6, some 6, Fit.contain, Format.png, 8 / 10, 0, none, none⟩

/-- Witness for C7: a 2-file × 2-preset batch yields exactly 4 artifacts in
exactly 2 distinct preset-named folders, with progress reported exactly as
(1,4), (2,4), (3,4), (4,4). -/
theorem processBatch_progress_and_entries_witness :
    (∀ j ∈ jobsOf [fileC7a, fileC7b] [presetSmW, presetLgW],
      isOkE (transformSingle hostC7 j.2.1 j.2.2 optsW j.1) = true) ∧
    ∃ r, processBatch hostC7 [fileC7a, fileC7b] [presetSmW, presetLgW] optsW = .ok r ∧
      r.progress = [(1, 4), (2, 4), (3, 4), (4, 4)] ∧
      r.entries.length = 4 ∧
      (r.entries.map (fun e => e.1)).dedup.length = 2 := by
  have hok : ∀ j ∈ jobsOf [fileC7a, fileC7b] [presetSmW, presetLgW],
      isOkE (transformSingle hostC7 j.2.1 j.2.2 optsW j.1) = true := by decide
  refine ⟨hok, ?_⟩
  obtain ⟨r, hr, hp, hl, hf⟩ :=
    processBatch_progress_and_entries hostC7 [fileC7a, fileC7b]
      [presetSmW, presetLgW] optsW hok
  refine ⟨r, hr, ?_, ?_, ?_⟩
  · rw [hp]
    decide
  · rw [hl]
    decide
  · rw [hf]
    decide

end Resizer
